import Mathlib

/-!
Shallow embedding of the contact-store core of the repository
(`src/source/datamodels/address_book.py`, `src/datamodels/fields.py`,
`src/source/utils.py`) and proofs about its specified properties.

Python strings are modelled as `List Char`; Python exceptions as
`Except PyErr`; `None`-able values as `Option`.
-/

/-- The Python exception kinds raised by the embedded code (`reError` is
`re.error`, raised when a regex pattern fails to compile). -/
inductive PyErr where
  | valueError
  | keyError
  | typeError
  | reError
deriving DecidableEq, Repr

/-- Python `str.isdigit` for one character.  It accepts the ASCII digits and
also every other Unicode character of Numeric_Type Digit or Decimal, for
example SUPERSCRIPT TWO (U+00B2); we model the fragment consisting of the
ASCII digits together with that representative non-ASCII digit character. -/
def pyIsDigit (c : Char) : Bool :=
  c.isDigit || c = '²'

/-- Python `needle in hay` substring test on strings. -/
def strContains (needle : List Char) : List Char → Bool
  | [] => needle.isEmpty
  | c :: t => needle.isPrefixOf (c :: t) || strContains needle t

/-- Python `s.replace(old, new)` where `old` is a single character:
every occurrence of `old` in `s` is replaced by the string `new`. -/
def pyReplace (s : List Char) (old : Char) (new : List Char) : List Char :=
  match s with
  | [] => []
  | c :: t => (if c = old then new else [c]) ++ pyReplace t old new

/-- `Phone.validate_phone` (src/datamodels/fields.py): raises `ValueError`
unless the string has length 10 and every character passes `str.isdigit`. -/
def validatePhone (phone : List Char) : Except PyErr (List Char) :=
  if phone.length ≠ 10 then .error .valueError
  else if phone.all pyIsDigit then .ok phone
  else .error .valueError

/-- Character class `[\w\.-]` of the email regex (`\w` modelled on ASCII:
alphanumeric or underscore). -/
def wClass (c : Char) : Bool :=
  c.isAlphanum || c = '_' || c = '.' || c = '-'

/-- Character class `[a-zA-Z\d\.-]` of the email regex. -/
def domClass (c : Char) : Bool :=
  c.isAlpha || c.isDigit || c = '.' || c = '-'

/-- Membership of a string in the language of the email regex
`^[\w\.-]+@[a-zA-Z\d\.-]+\.[a-zA-Z]{2,}$` without the end-of-string
behaviour of `$` (handled in `pyEmailMatch`): there are positions `i < j`
with `s[i] = '@'`, `s[j] = '.'`, a nonempty `[\w\.-]` prefix before `i`,
a nonempty `[a-zA-Z\d\.-]` segment strictly between, and at least two
alphabetic characters after `j`. -/
def emailCore (s : List Char) : Bool :=
  (List.range s.length).any fun i =>
    (List.range s.length).any fun j =>
      decide (0 < i) && decide (i < j) &&
      (s.getD i ' ' = '@') && (s.getD j ' ' = '.') &&
      (s.take i).all wClass &&
      decide (i + 1 < j) && ((s.drop (i + 1)).take (j - i - 1)).all domClass &&
      decide (j + 2 ≤ s.length - 1) && (s.drop (j + 1)).all Char.isAlpha

/-- `re.match(pattern, s)` for the anchored email pattern: `$` matches at the
end of the string or just before one trailing newline. -/
def pyEmailMatch (s : List Char) : Bool :=
  emailCore s ||
    (if s.getLast? = some '\n' then emailCore s.dropLast else false)

/-- `Email.validate_email` (src/datamodels/fields.py): returns the string if
the regex matches, otherwise raises `ValueError`. -/
def validateEmail (email : List Char) : Except PyErr (List Char) :=
  if pyEmailMatch email then .ok email else .error .valueError

/-- A Gregorian calendar date, as Python's `datetime.date`. -/
structure PDate where
  year : Nat
  month : Nat
  day : Nat
deriving DecidableEq, Repr

/-- Gregorian leap-year test. -/
def isLeap (y : Nat) : Bool :=
  (y % 4 = 0 && y % 100 ≠ 0) || y % 400 = 0

/-- Number of days in a month. -/
def daysInMonth (leap : Bool) (m : Nat) : Nat :=
  [31, if leap then 29 else 28, 31, 30, 31, 30, 31, 31, 30, 31, 30, 31].getD (m - 1) 0

/-- Validity of a `datetime.date(y, m, d)` construction: Python requires
`1 ≤ y ≤ 9999` and a real calendar day. -/
def validDate (y m d : Nat) : Bool :=
  decide (1 ≤ y) && decide (y ≤ 9999) && decide (1 ≤ m) && decide (m ≤ 12) &&
  decide (1 ≤ d) && decide (d ≤ daysInMonth (isLeap y) m)

/-- Python `date.replace(year=y)`: keeps month and day, raises `ValueError`
if the resulting date is invalid (e.g. Feb 29 in a non-leap year). -/
def replaceYear (d : PDate) (y : Nat) : Except PyErr PDate :=
  if validDate y d.month d.day then .ok ⟨y, d.month, d.day⟩ else .error .valueError

/-- Lexicographic order on dates, Python `date` comparison. -/
def pdateLt (a b : PDate) : Bool :=
  decide (a.year < b.year) ||
    (a.year = b.year &&
      (decide (a.month < b.month) || (a.month = b.month && decide (a.day < b.day))))

/-- Cumulative days before month `m` in a non-leap year. -/
def cumDays (m : Nat) : Nat :=
  [0, 31, 59, 90, 120, 151, 181, 212, 243, 273, 304, 334].getD (m - 1) 0

/-- Days in the years strictly before year `y`. -/
def daysBeforeYear (y : Nat) : Nat :=
  let n := y - 1
  365 * n + n / 4 + n / 400 - n / 100

/-- Python `date.toordinal`: day 1 is 0001-01-01. -/
def toOrdinal (d : PDate) : Nat :=
  daysBeforeYear d.year + cumDays d.month +
    (if isLeap d.year && decide (2 < d.month) then 1 else 0) + d.day

/-- Python `(a - b).days` on dates. -/
def dateSubDays (a b : PDate) : Int :=
  (toOrdinal a : Int) - (toOrdinal b : Int)

/-- Digit character for `n < 10`. -/
def digitChar (n : Nat) : Char :=
  Char.ofNat (48 + n % 10)

/-- Zero-padded two-digit rendering (for `%m`, `%d`), correct for `n ≤ 99`. -/
def pad2 (n : Nat) : List Char :=
  [digitChar (n / 10), digitChar n]

/-- Zero-padded four-digit rendering (for `%Y`), correct for `n ≤ 9999`. -/
def pad4 (n : Nat) : List Char :=
  [digitChar (n / 1000), digitChar (n / 100), digitChar (n / 10), digitChar n]

/-- `date.strftime("%Y.%m.%d")`, the repository's `DATE_FORMAT`. -/
def formatDate (d : PDate) : List Char :=
  pad4 d.year ++ '.' :: pad2 d.month ++ '.' :: pad2 d.day

/-- Take up to `n` leading ASCII-digit characters (greedy), returning them
and the rest of the string. -/
def takeDigits : Nat → List Char → (List Char × List Char)
  | 0, s => ([], s)
  | _ + 1, [] => ([], [])
  | n + 1, c :: t =>
    if c.isDigit then
      let p := takeDigits n t
      (c :: p.1, p.2)
    else ([], c :: t)

/-- Numeric value of a digit string. -/
def digitsToNat (ds : List Char) : Nat :=
  ds.foldl (fun a c => a * 10 + (c.toNat - 48)) 0

/-- `datetime.strptime(s, "%Y.%m.%d").date()` as used by
`Birthday.validate_date`: `%Y` consumes up to four digits, `%m` and `%d` up
to two, the dots are literal, the whole string must be consumed, and the
resulting date must be a valid calendar date. -/
def parseDate (s : List Char) : Except PyErr PDate :=
  let py := takeDigits 4 s
  match py.1, py.2 with
  | [], _ => .error .valueError
  | yds, '.' :: r2 =>
    let pm := takeDigits 2 r2
    match pm.1, pm.2 with
    | [], _ => .error .valueError
    | mds, '.' :: r4 =>
      let pd := takeDigits 2 r4
      match pd.1, pd.2 with
      | [], _ => .error .valueError
      | dds, [] =>
        let y := digitsToNat yds
        let m := digitsToNat mds
        let d := digitsToNat dds
        if validDate y m d then .ok ⟨y, m, d⟩ else .error .valueError
      | _, _ :: _ => .error .valueError
    | _, _ => .error .valueError
  | _, _ => .error .valueError

/-- The value stored inside a `Birthday` field: Python `None`, the literal
string `"None"` (which skips validation in `Birthday.__init__`), or a
parsed date. -/
inductive BVal where
  | vnone
  | vnoneStr
  | vdate (d : PDate)
deriving DecidableEq, Repr

/-- `Birthday.__init__` (src/datamodels/fields.py): `None` and the string
`"None"` are stored as-is; any other string is validated with
`validate_date` (raising `ValueError` on failure). -/
def mkBirthdayVal : Option (List Char) → Except PyErr BVal
  | none => .ok .vnone
  | some s =>
    if s = "None".toList then .ok .vnoneStr
    else (parseDate s).map .vdate

/-- `str(birthday)` (`Birthday.__str__`): `"None"` for an absent value,
otherwise `strftime(DATE_FORMAT)`. -/
def strBVal : BVal → List Char
  | .vnone => "None".toList
  | .vnoneStr => "None".toList
  | .vdate d => formatDate d

/-- `str(field)` for `Address`/`Email` fields: Python `str(None)` is the
string `"None"`. -/
def strOpt : Option (List Char) → List Char
  | none => "None".toList
  | some s => s

/-- A contact `Record` (src/source/datamodels/address_book.py): validated
name, phone strings, birthday value, and optional address and email values
(`none` models a Python `None` stored in the field). -/
structure Record where
  name : List Char
  phones : List (List Char)
  birthday : BVal
  address : Option (List Char)
  email : Option (List Char)
deriving DecidableEq, Repr

/-- `Record.find_phone`: the phone with the identical value, else `KeyError`. -/
def findPhone (phones : List (List Char)) (p : List Char) : Except PyErr (List Char) :=
  if phones.contains p then .ok p else .error .keyError

/-- `Record.add_phone`: if the phone is already present, warn (second
component `true`) and leave the list unchanged; otherwise construct
`Phone(phone)` (validating) and append it. -/
def addPhone (phones : List (List Char)) (p : List Char) :
    Except PyErr (List (List Char) × Bool) :=
  if phones.contains p then .ok (phones, true)
  else do
    let v ← validatePhone p
    .ok (phones ++ [v], false)

/-- `Record.remove_phone`: find the phone (`KeyError` if absent) and remove
its first occurrence from the list. -/
def removePhone (phones : List (List Char)) (p : List Char) :
    Except PyErr (List (List Char)) := do
  let v ← findPhone phones p
  .ok (phones.erase v)

/-- `Record.edit_phone`: validate the new phone first, then remove the old
one, then add the new one under the duplicate rule. -/
def editPhone (phones : List (List Char)) (old new : List Char) :
    Except PyErr (List (List Char) × Bool) := do
  let v ← validatePhone new
  let ps ← removePhone phones old
  addPhone ps v

/-- `Record.add_email`: validate with `validate_email`, then store. -/
def addEmail (r : Record) (e : List Char) : Except PyErr Record := do
  let v ← validateEmail e
  .ok { r with email := some v }

/-- `Record.update_email`: stores `Email(new_email)`; `Email.__init__`
performs no validation, so the value is stored unconditionally. -/
def updateEmail (r : Record) (e : List Char) : Record :=
  { r with email := some e }

/-- Effectful map over a list with Python exception propagation (a list
comprehension whose element expression can raise). -/
def exceptMapM {α β : Type} (f : α → Except PyErr β) : List α → Except PyErr (List β)
  | [] => .ok []
  | a :: t => do
    let b ← f a
    let bs ← exceptMapM f t
    .ok (b :: bs)

/-- `Record.__init__` called with JSON-shaped data: name kept as-is, each
phone validated via `Phone(phone)`, the birthday via `Birthday(value)`, and
address/email stored without validation. -/
def mkRecord (name_ : List Char) (phones : List (List Char))
    (birthday : Option (List Char)) (address : Option (List Char))
    (email : Option (List Char)) : Except PyErr Record := do
  let phs ← exceptMapM validatePhone phones
  let bd ← mkBirthdayVal birthday
  .ok ⟨name_, phs, bd, address, email⟩

/-- The JSON shape of one persisted contact (§6 of the design): the object
`{name_, phones, birthday, address, email}` with stringified optional
fields. -/
structure RecordData where
  name_ : List Char
  phones : List (List Char)
  birthday : List Char
  address : List Char
  email : List Char
deriving DecidableEq, Repr

/-- Serialization of one record in `AddressBook.dump_data_to_json`. -/
def dumpRecord (r : Record) : RecordData :=
  ⟨r.name, r.phones, strBVal r.birthday, strOpt r.address, strOpt r.email⟩

/-- The `AddressBook.data` dict: an insertion-ordered association list from
name string to `Record`. -/
abbrev Book := List (List Char × Record)

/-- The dict keys, in insertion order. -/
def keys (b : Book) : List (List Char) :=
  b.map Prod.fst

/-- Python dict item assignment: an existing key keeps its position and gets
the new value; a new key is appended at the end. -/
def dictInsert : Book → (List Char × Record) → Book
  | [], kv => [kv]
  | (k, v) :: rest, kv => if k = kv.1 then (k, kv.2) :: rest else (k, v) :: dictInsert rest kv

/-- Build a dict from a sequence of key/value pairs (the dict comprehension
in `load_data_from_json`). -/
def buildDict (l : List (List Char × Record)) : Book :=
  l.foldl dictInsert []

/-- `AddressBook.load_data_from_json`: each JSON object is passed to
`Record(**data)` (which can raise `ValueError`), keyed by its `name_`. -/
def loadData (ds : List RecordData) : Except PyErr Book := do
  let l ← exceptMapM (fun d => do
    let r ← mkRecord d.name_ d.phones (some d.birthday) (some d.address) (some d.email)
    Except.ok (d.name_, r)) ds
  .ok (buildDict l)

/-- `AddressBook.dump_data_to_json`: serialize every stored record in store
order. -/
def dumpBook (b : Book) : List RecordData :=
  b.map fun kv => dumpRecord kv.2

/-- `AddressBook.add_record`: insert only if the name is not yet a key;
returns the stored record, or Python's implicit `None` if it was not
added. -/
def addRecord (b : Book) (r : Record) : Book × Option Record :=
  if (keys b).contains r.name then (b, none)
  else (b ++ [(r.name, r)], some r)

/-- Removal of a key from a dict (Python `del data[name]`). -/
def eraseKey : Book → List Char → Book
  | [], _ => []
  | (k, v) :: rest, n => if k = n then rest else (k, v) :: eraseKey rest n

/-- `AddressBook.delete`: `find` raises `KeyError` when the name is absent,
otherwise the entry is removed. -/
def deleteRecord (b : Book) (n : List Char) : Except PyErr Book :=
  if (keys b).contains n then .ok (eraseKey b n) else .error .keyError

/-- A token of the regex fragment generated by the phone search: a literal
character or the digit wildcard `\d` (modelled on ASCII digits). -/
inductive PTok where
  | lit (c : Char)
  | anyDigit
deriving DecidableEq, Repr

/-- Reading a pattern string as regex tokens: the two-character sequence
backslash-`d` is the digit wildcard; every other character is literal
(the generated patterns contain no other regex syntax). -/
def tokenize : List Char → List PTok
  | [] => []
  | '\\' :: 'd' :: rest => .anyDigit :: tokenize rest
  | c :: rest => .lit c :: tokenize rest

/-- The token list matches a prefix of the string. -/
def matchToks : List PTok → List Char → Bool
  | [], _ => true
  | _ :: _, [] => false
  | .lit c :: ts, x :: xs => x = c && matchToks ts xs
  | .anyDigit :: ts, x :: xs => x.isDigit && matchToks ts xs

/-- `re.search` for the token fragment: the pattern matches at some offset. -/
def reSearchD (toks : List PTok) : List Char → Bool
  | [] => matchToks toks []
  | c :: t => matchToks toks (c :: t) || reSearchD toks t

/-- `Record.search_phone`: `None` when the pattern string is longer than 10
characters, else the first phone containing a match. -/
def searchPhoneR (r : Record) (patStr : List Char) : Option (List Char) :=
  if patStr.length > 10 then none
  else r.phones.find? fun ph => reSearchD (tokenize patStr) ph

/-- `AddressBook.search_by_number`: exact pass over all records; if it is
empty and the query is longer than 3 characters, a fuzzy pass replaces each
query character (every occurrence of its value, per `str.replace`) with the
two-character wildcard string backslash-`d` and unions the matches (the set
union is modelled as a concatenation, to be read up to membership). -/
def searchByNumber (b : Book) (q : List Char) : List Record :=
  let records := b.map Prod.snd
  let exact := records.filter fun r => (searchPhoneR r q).isSome
  if exact = [] ∧ q.length > 3 then
    (q.map fun c =>
      records.filter fun r => (searchPhoneR r (pyReplace q c ['\\', 'd'])).isSome).flatten
  else exact

/-- The exact pass of `search_by_name_or_email`: keep each record whose name
contains the query; otherwise Python evaluates `query in record.email.value`,
which raises `TypeError` when that value is `None`. -/
def exactNE (q : List Char) : List Record → Except PyErr (List Record)
  | [] => .ok []
  | r :: rs => do
    let keep ←
      if strContains q r.name then pure true
      else
        match r.email with
        | none => Except.error PyErr.typeError
        | some e => pure (strContains q e)
    let rest ← exactNE q rs
    .ok (if keep then r :: rest else rest)

/-- One fuzzy filter of `search_by_name_or_email` for a substituted pattern.
`rs` abstracts `re.search(pattern, text)`, which is itself fallible:
`re.search` compiles its pattern, so an invalid substituted pattern raises
`re.error` here, outside the `try` block that guards only the original
query (e.g. query `"a[b]"` compiles, but its `']'`-to-`'.'` substitution
`"a[b."` has an unterminated character set).  A `None` email value raises
`TypeError` when reached with a valid pattern. -/
def fuzzyFilterNE (rs : List Char → List Char → Except PyErr Bool)
    (pat : List Char) : List Record → Except PyErr (List Record)
  | [] => .ok []
  | r :: recs => do
    let kn ← rs pat r.name
    let keep ←
      if kn then pure true
      else
        match r.email with
        | none => Except.error PyErr.typeError
        | some e => rs pat e
    let rest ← fuzzyFilterNE rs pat recs
    .ok (if keep then r :: rest else rest)

/-- `AddressBook.search_by_name_or_email`: exact substring pass; if empty and
the query is longer than 3 characters, return `[]` when the query does not
compile as a regex (`compiles` abstracts `re.compile` on the original query
succeeding — only that call sits inside the `try`/`except re.error`), else
union the fuzzy passes obtained by replacing each query character with `.`
(set union modelled as concatenation); errors raised by `re.search` on the
substituted patterns propagate to the caller. -/
def searchNE (compiles : List Char → Bool)
    (rs : List Char → List Char → Except PyErr Bool)
    (b : Book) (q : List Char) : Except PyErr (List Record) := do
  let records := b.map Prod.snd
  let results ← exactNE q records
  if results = [] ∧ q.length > 3 then
    if compiles q then do
      let lists ← exceptMapM (fun c => fuzzyFilterNE rs (pyReplace q c ['.']) records) q
      .ok lists.flatten
    else .ok []
  else .ok results

/-- `AddressBook.search`: an all-`isdigit` query of length at most 10 is a
phone query, anything else a name/email query. -/
def search (compiles : List Char → Bool)
    (rs : List Char → List Char → Except PyErr Bool)
    (b : Book) (q : List Char) : Except PyErr (List Record) :=
  if q.length ≤ 10 ∧ q.all pyIsDigit then .ok (searchByNumber b q)
  else searchNE compiles rs b q

/-- Abbreviated month name for `%b` (C locale). -/
def monthAbbr (m : Nat) : List Char :=
  (["Jan", "Feb", "Mar", "Apr", "May", "Jun",
    "Jul", "Aug", "Sep", "Oct", "Nov", "Dec"].getD (m - 1) "").toList

/-- Full weekday name for `%A` (C locale): ordinal 1 (0001-01-01) is a
Monday. -/
def weekdayName (d : PDate) : List Char :=
  (["Monday", "Tuesday", "Wednesday", "Thursday", "Friday", "Saturday",
    "Sunday"].getD ((toOrdinal d - 1) % 7) "").toList

/-- `date.strftime("%d %b (%A)")`, the grouping label used by
`get_birthdays_per_days`. -/
def strftimeLabel (d : PDate) : List Char :=
  pad2 d.day ++ ' ' :: monthAbbr d.month ++ ' ' :: '(' :: weekdayName d ++ [')']

/-- The projection step of `get_birthdays_per_days`: replace the birthday's
year with the current year (which can raise `ValueError`), and advance one
year when today is already past the projected date. -/
def projectBirthday (today : PDate) (bd : PDate) : Except PyErr PDate := do
  let d ← replaceYear bd today.year
  if pdateLt d today then replaceYear d (today.year + 1) else pure d

/-- Append a record to the group of a label in a `defaultdict(list)`:
an existing label keeps its position, a new label is appended. -/
def appendGroup : List (List Char × List Record) → List Char → Record →
    List (List Char × List Record)
  | [], lab, r => [(lab, [r])]
  | (k, v) :: rest, lab, r =>
    if k = lab then (k, v ++ [r]) :: rest else (k, v) :: appendGroup rest lab r

/-- The first group stored under a label (empty when the label is absent). -/
def groupOf : List (List Char × List Record) → List Char → List Record
  | [], _ => []
  | (k, v) :: rest, lab => if k = lab then v else groupOf rest lab

/-- The loop of `get_birthdays_per_days` (src/source/utils.py): records with
an absent birthday (`None` or the string `"None"`) are skipped; for the
rest the birthday is projected onto the current year (raising `ValueError`
when the projection is an invalid date), and the record is appended under
the projected date's label when `(projected - today).days < days`. -/
def gbpdAux (today : PDate) (days : Int) :
    List Record → List (List Char × List Record) →
    Except PyErr (List (List Char × List Record))
  | [], acc => .ok acc
  | r :: rs, acc =>
    match r.birthday with
    | .vnone => gbpdAux today days rs acc
    | .vnoneStr => gbpdAux today days rs acc
    | .vdate bd => do
      let proj ← projectBirthday today bd
      let acc' :=
        if dateSubDays proj today < days then appendGroup acc (strftimeLabel proj) r
        else acc
      gbpdAux today days rs acc'

/-- `get_birthdays_per_days(users_data, days)` with the ambient
`datetime.today()` passed explicitly. -/
def getBirthdaysPerDays (records : List Record) (today : PDate) (days : Int) :
    Except PyErr (List (List Char × List Record)) :=
  gbpdAux today days records []

/-- The store invariant of §3: every dict key equals the stored record's
name value, and no two records share a name (dict keys are unique). -/
def BookInv (b : Book) : Prop :=
  (∀ kv ∈ b, kv.1 = kv.2.name) ∧ (keys b).Nodup

/-- Store states reachable from the empty store through `add_record`,
`delete` (when it succeeds; a failing delete leaves the store unchanged)
and a successful `load_data_from_json` (which replaces the data wholly). -/
inductive Reach : Book → Prop
  | empty : Reach []
  | add (b : Book) (r : Record) : Reach b → Reach (addRecord b r).1
  | del (b : Book) (n : List Char) (b' : Book) :
      Reach b → deleteRecord b n = .ok b' → Reach b'
  | load (b : Book) (ds : List RecordData) (b' : Book) :
      Reach b → loadData ds = .ok b' → Reach b'

/-- Sample record with one phone and no optional fields. -/
def bobRec : Record := ⟨"Bob".toList, ["1234567890".toList], .vnone, none, none⟩

/-- Sample one-record store. -/
def bobBook : Book := [("Bob".toList, bobRec)]

/-- Sample record with an email present. -/
def annRec : Record := ⟨"Ann".toList, [], .vnone, none, some "ann@mail.co".toList⟩

/-- Sample one-record store whose record has an email. -/
def annBook : Book := [("Ann".toList, annRec)]

/-- First sample phone string. -/
def phA : List Char := "1111111111".toList

/-- Second sample phone string. -/
def phB : List Char := "2222222222".toList

/-- Sample record with a birthday of 2024.01.10. -/
def recA : Record := ⟨"A".toList, [], .vdate ⟨2024, 1, 10⟩, none, none⟩

/-- Sample record whose birthday is Feb 29 of a leap year. -/
def recFeb : Record := ⟨"F".toList, [], .vdate ⟨2024, 2, 29⟩, none, none⟩

/-- The birthday value after one save/load round trip: dates survive
unchanged, a `None`/`"None"` birthday comes back as the string `"None"`. -/
def roundBVal : BVal → BVal
  | .vnone => .vnoneStr
  | .vnoneStr => .vnoneStr
  | .vdate d => .vdate d

/-- The record produced by one save/load round trip: name and phones
survive unchanged, the birthday as in `roundBVal`, and the optional address
and email fields come back as the string rendering of their old value
(Python `None` becomes the string `"None"`). -/
def roundRecord (r : Record) : Record :=
  ⟨r.name, r.phones, roundBVal r.birthday,
    some (strOpt r.address), some (strOpt r.email)⟩

/-- Decidable equality on `Except`, for evaluating results on concrete
inputs. -/
instance {ε α : Type} [DecidableEq ε] [DecidableEq α] :
    DecidableEq (Except ε α) := fun a b =>
  match a, b with
  | .ok x, .ok y =>
    if h : x = y then .isTrue (by rw [h]) else .isFalse (by simp [h])
  | .error x, .error y =>
    if h : x = y then .isTrue (by rw [h]) else .isFalse (by simp [h])
  | .ok _, .error _ => .isFalse (by simp)
  | .error _, .ok _ => .isFalse (by simp)

/-- Well-formed field values of a stored record: every phone passes phone
validation and a present birthday is a valid calendar date. -/
def wfRecordFields (r : Record) : Prop :=
  (∀ p ∈ r.phones, validatePhone p = .ok p) ∧
  (match r.birthday with
    | .vdate d => validDate d.year d.month d.day = true
    | _ => True)

/-- Running a monadic `Except` computation from a success. -/
theorem except_bind_ok {α β : Type} (a : α) (f : α → Except PyErr β) :
    (do let x ← Except.ok a; f x) = f a := rfl

/-- Running a monadic `Except` computation from an error. -/
theorem except_bind_error {α β : Type} (e : PyErr) (f : α → Except PyErr β) :
    (do let x ← (Except.error e : Except PyErr α); f x) = Except.error e := rfl

/-- C6 (counterexample): ten copies of SUPERSCRIPT TWO — a string containing
no ASCII digit at all — pass `Phone.validate_phone`, because Python's
`str.isdigit` accepts non-ASCII digit characters; the claim says every such
string must fail with a `ValidationError`. -/
theorem C6_counterexample :
    validatePhone (List.replicate 10 '²') = .ok (List.replicate 10 '²') ∧
    ('²'.isDigit = false) :=
  ⟨rfl, rfl⟩

/-- C6 (amended): `Phone.validate_phone` succeeds exactly on strings of
length 10 all of whose characters pass Python's `str.isdigit`; restricted
to ASCII this is exactly the 10-ASCII-digit strings, but some non-ASCII
strings also succeed. -/
theorem C6_phone_validation (s : List Char) :
    validatePhone s = .ok s ↔ (s.length = 10 ∧ s.all pyIsDigit = true) := by
  unfold validatePhone
  by_cases h : s.length = 10 <;> by_cases h2 : s.all pyIsDigit <;> simp [h, h2]

/-- C5: `Record.update_email` stores a string that fails the email format
contract without raising — `Email.__init__` never validates — although the
claim, the spec and `update_email`'s own docstring require a
`ValidationError` at mutation time.  `Record.add_email` does validate. -/
theorem C5_update_email_stores_invalid :
    validateEmail "not-an-email".toList = .error .valueError ∧
    updateEmail bobRec "not-an-email".toList =
      { bobRec with email := some "not-an-email".toList } ∧
    addEmail bobRec "not-an-email".toList = .error .valueError :=
  ⟨rfl, rfl, rfl⟩

/-- C8: on a duplicate name, `add_record` returns the "not added" sentinel
(`None`) and the store — keys and every stored record — is returned
unmodified; on a new name, the record is appended and returned. -/
theorem C8_add_record (b : Book) (r : Record) :
    ((keys b).contains r.name = true → addRecord b r = (b, none)) ∧
    ((keys b).contains r.name = false →
      addRecord b r = (b ++ [(r.name, r)], some r)) := by
  constructor <;> intro h
  · have h' : r.name ∈ keys b := by simpa using h
    simp [addRecord, h']
  · have h' : r.name ∉ keys b := by simpa using h
    simp [addRecord, h']

/-- C8 (witness): adding a record under the already-present name `"Bob"`
returns the sentinel and the untouched store. -/
theorem C8_witness :
    addRecord bobBook ⟨"Bob".toList, [], .vnone, none, none⟩ = (bobBook, none) := by
  exact (C8_add_record bobBook ⟨"Bob".toList, [], .vnone, none, none⟩).1 (by decide)

/-- C1: the spec's own example fails on the code.  With the store holding
phone `"1234567890"` and the all-digit query `"1234567899"`, the exact pass
is empty and the fuzzy pass produces pattern strings such as
`"12345678\d\d"` whose string length (12) exceeds `search_phone`'s
`len(query) > 10` guard, so every fuzzy probe returns `None` and `search`
yields `[]` — even though, as the last conjunct shows, the substituted
pattern itself does match the stored phone. -/
theorem C1_fuzzy_len10_returns_empty :
    search (fun _ => true) (fun _ _ => .ok false) bobBook "1234567899".toList =
      .ok [] ∧
    (pyReplace "1234567899".toList '9' ['\\', 'd']).length = 12 ∧
    reSearchD (tokenize (pyReplace "1234567899".toList '9' ['\\', 'd']))
      "1234567890".toList = true :=
  ⟨rfl, rfl, rfl⟩

/-- C2 (counterexample): `search` can raise, refuting "never raises an
exception to the caller".  First conjunct: on a store whose record has no
email, the exact pass evaluates `query in record.email.value` with the
value `None` and Python raises `TypeError`.  Second conjunct: even with
every email present, the fuzzy pass re-compiles each substituted pattern
outside the `try` block — for query `"a[b]"` (which compiles) the
substitution of `']'` yields `"a[b."`, an unterminated character set, so
`re.search` raises `re.error` to the caller; the instantiation of `rs`
errors exactly on that pattern, mirroring Python's regex compiler, and the
error propagates out of `search`. -/
theorem C2_counterexample :
    search (fun _ => true) (fun _ _ => .ok false) bobBook "xyzw".toList =
      .error .typeError ∧
    search (fun _ => true)
      (fun pat _ => if pat = "a[b.".toList then .error .reError else .ok false)
      annBook "a[b]".toList = .error .reError ∧
    pyReplace "a[b]".toList ']' ['.'] = "a[b.".toList :=
  ⟨rfl, rfl, rfl⟩

/-- C7: `edit_phone` validates the new phone first (an invalid new phone
propagates its `ValueError` even before the old one is looked up), then
removes the old phone (`KeyError` when absent), then adds the new one under
the duplicate rule: when the new phone is already present in the remaining
list, the result is exactly the old list minus the first occurrence of the
old phone — no second copy of the new phone — with the duplicate warning
signalled (second component `true`), not an error. -/
theorem C7_edit_phone (phones : List (List Char)) (old new : List Char) :
    (∀ e, validatePhone new = .error e → editPhone phones old new = .error e) ∧
    (validatePhone new = .ok new → old ∉ phones →
      editPhone phones old new = .error .keyError) ∧
    (validatePhone new = .ok new → old ∈ phones → new ∈ phones.erase old →
      editPhone phones old new = .ok (phones.erase old, true)) := by
  refine ⟨?_, ?_, ?_⟩
  · intro e he
    simp [editPhone, he, except_bind_error]
  · intro hv hold
    have h' : phones.contains old = false := by simpa using hold
    simp [editPhone, hv, removePhone, findPhone, h', hold, except_bind_ok,
      except_bind_error]
  · intro hv hold hnew
    have h1 : phones.contains old = true := by simpa using hold
    have h2 : (phones.erase old).contains new = true := by simpa using hnew
    simp [editPhone, hv, removePhone, findPhone, addPhone, h1, h2,
      except_bind_ok, hold, hnew]

/-- C7 (witness): editing `"1111111111"` to the already-present
`"2222222222"` collapses to removal of the old phone with a warning. -/
theorem C7_witness :
    editPhone [phA, phB] phA phB = .ok ([phB], true) := by
  have h := (C7_edit_phone [phA, phB] phA phB).2.2 rfl (by decide) (by decide)
  have he : [phA, phB].erase phA = [phB] := by decide
  rw [he] at h
  exact h

/-- The exact name/email pass succeeds (returns some list) whenever every
record's email value is present. -/
theorem exactNE_isOk (q : List Char) :
    ∀ recs : List Record, (∀ r ∈ recs, r.email.isSome = true) →
      ∃ l, exactNE q recs = .ok l := by
  intro recs
  induction recs with
  | nil => exact fun _ => ⟨[], rfl⟩
  | cons r rs ih =>
    intro h
    obtain ⟨l, hl⟩ := ih fun x hx => h x (List.mem_cons_of_mem _ hx)
    have hr := h r (List.mem_cons_self _ _)
    cases he : r.email with
    | none => rw [he] at hr; simp at hr
    | some e =>
      by_cases hn : strContains q r.name = true
      · exact ⟨r :: l, by simp [exactNE, hn, hl, except_bind_ok]⟩
      · have hn' : strContains q r.name = false := by simpa using hn
        by_cases hc : strContains q e = true
        · exact ⟨r :: l, by simp [exactNE, hn', he, hc, hl, except_bind_ok]⟩
        · have hc' : strContains q e = false := by simpa using hc
          exact ⟨l, by simp [exactNE, hn', he, hc', hl, except_bind_ok]⟩

/-- One fuzzy name/email filter succeeds whenever every record's email value
is present and `re.search` succeeds on this pattern (the substituted
pattern is a valid regex). -/
theorem fuzzyFilterNE_isOk (rs : List Char → List Char → Except PyErr Bool)
    (pat : List Char) (hrs : ∀ text, ∃ bb, rs pat text = .ok bb) :
    ∀ recs : List Record, (∀ r ∈ recs, r.email.isSome = true) →
      ∃ l, fuzzyFilterNE rs pat recs = .ok l := by
  intro recs
  induction recs with
  | nil => exact fun _ => ⟨[], rfl⟩
  | cons r t ih =>
    intro h
    obtain ⟨l, hl⟩ := ih fun x hx => h x (List.mem_cons_of_mem _ hx)
    have hr := h r (List.mem_cons_self _ _)
    cases he : r.email with
    | none => rw [he] at hr; simp at hr
    | some e =>
      obtain ⟨bn, hbn⟩ := hrs r.name
      cases bn with
      | true => exact ⟨r :: l, by simp [fuzzyFilterNE, hbn, hl, except_bind_ok]⟩
      | false =>
        obtain ⟨be, hbe⟩ := hrs e
        cases be with
        | true =>
          exact ⟨r :: l, by simp [fuzzyFilterNE, hbn, he, hbe, hl, except_bind_ok]⟩
        | false =>
          exact ⟨l, by simp [fuzzyFilterNE, hbn, he, hbe, hl, except_bind_ok]⟩

/-- `exceptMapM` succeeds when every element succeeds. -/
theorem exceptMapM_isOk {α β : Type} (f : α → Except PyErr β) :
    ∀ l : List α, (∀ a ∈ l, ∃ b, f a = .ok b) → ∃ bs, exceptMapM f l = .ok bs := by
  intro l
  induction l with
  | nil => exact fun _ => ⟨[], rfl⟩
  | cons a t ih =>
    intro h
    obtain ⟨b, hb⟩ := h a (List.mem_cons_self _ _)
    obtain ⟨bs, hbs⟩ := ih fun x hx => h x (List.mem_cons_of_mem _ hx)
    exact ⟨b :: bs, by simp [exceptMapM, hb, hbs, except_bind_ok]⟩

/-- C2 (amended): when every record in the store has a present email value,
the compile-failure branch of `search_by_name_or_email` is safe: if the
exact substring pass is empty, the query is longer than 3 characters, and
the query fails to compile as a regex, the result is the empty list and
nothing is raised (the fuzzy loop is never entered).  Moreover, under the
additional explicit proviso that `re.search` succeeds on every substituted
pattern (each `query.replace(char, '.')` is a valid regex), the search
returns a list and does not raise; without that proviso the fuzzy pass can
raise `re.error`, as the counterexample shows. -/
theorem C2_search_never_raises (compiles : List Char → Bool)
    (rs : List Char → List Char → Except PyErr Bool) (b : Book) (q : List Char)
    (he : ∀ kv ∈ b, kv.2.email.isSome = true) :
    (exactNE q (b.map Prod.snd) = .ok [] → q.length > 3 → compiles q = false →
      searchNE compiles rs b q = .ok []) ∧
    ((∀ c ∈ q, ∀ text, ∃ bb, rs (pyReplace q c ['.']) text = .ok bb) →
      ∃ res, searchNE compiles rs b q = .ok res) := by
  have hrecs : ∀ r ∈ b.map Prod.snd, r.email.isSome = true := by
    intro r hr
    obtain ⟨kv, hkv, hkv2⟩ := List.mem_map.mp hr
    exact hkv2 ▸ he kv hkv
  constructor
  · intro hempty hlen hc
    simp [searchNE, hempty, hlen, hc, except_bind_ok]
  · intro hre
    obtain ⟨l, hl⟩ := exactNE_isOk q (b.map Prod.snd) hrecs
    by_cases hcond : l = [] ∧ q.length > 3
    · obtain ⟨hl0, hlen⟩ := hcond
      subst hl0
      by_cases hc : compiles q = true
      · have hall : ∀ c ∈ q, ∃ out,
            fuzzyFilterNE rs (pyReplace q c ['.']) (b.map Prod.snd) = .ok out :=
          fun c hcq => fuzzyFilterNE_isOk rs _ (hre c hcq) _ hrecs
        obtain ⟨ls, hls⟩ := exceptMapM_isOk _ q hall
        exact ⟨ls.flatten, by
          simp [searchNE, hl, hlen, hc, hls, except_bind_ok]⟩
      · have hc' : compiles q = false := by simpa using hc
        exact ⟨[], by simp [searchNE, hl, hlen, hc', except_bind_ok]⟩
    · exact ⟨l, by simp [searchNE, hl, hcond, except_bind_ok]⟩

/-- C2 (witness): on a store whose single record has an email, a
4-character query that matches nothing and fails to compile yields the
empty list, and with valid substituted patterns the search returns a
list. -/
theorem C2_witness :
    searchNE (fun _ => false) (fun _ _ => .ok false) annBook "xyzw".toList =
      .ok [] ∧
    ∃ res, searchNE (fun _ => true) (fun _ _ => .ok false) annBook
      "xyzw".toList = .ok res :=
  ⟨(C2_search_never_raises (fun _ => false) (fun _ _ => .ok false) annBook
      "xyzw".toList (by decide)).1 rfl (by decide) rfl,
    (C2_search_never_raises (fun _ => true) (fun _ _ => .ok false) annBook
      "xyzw".toList (by decide)).2 fun _ _ _ => ⟨false, rfl⟩⟩

/-- `add_record` preserves the store invariant. -/
theorem addRecord_inv (b : Book) (r : Record) (h : BookInv b) :
    BookInv (addRecord b r).1 := by
  by_cases hc : r.name ∈ keys b
  · simpa [addRecord, hc] using h
  · obtain ⟨hnames, hnodup⟩ := h
    refine ⟨?_, ?_⟩
    · intro kv hkv
      simp only [addRecord, hc] at hkv
      rw [if_neg (by simpa using hc)] at hkv
      rcases List.mem_append.mp hkv with h1 | h1
      · exact hnames kv h1
      · simp at h1
        subst h1
        rfl
    · simp only [addRecord]
      rw [if_neg (by simpa using hc)]
      have hkeys : keys (b ++ [(r.name, r)]) = keys b ++ [r.name] := by
        simp [keys]
      rw [hkeys]
      refine List.Nodup.append hnodup (List.nodup_singleton _) ?_
      intro a ha hmem
      rw [List.mem_singleton] at hmem
      subst hmem
      exact hc ha

/-- Entries surviving a key deletion were entries before. -/
theorem eraseKey_subset : ∀ (b : Book) (n : List Char) (kv : List Char × Record),
    kv ∈ eraseKey b n → kv ∈ b := by
  intro b
  induction b with
  | nil => intro n kv h; simp [eraseKey] at h
  | cons x rest ih =>
    intro n kv h
    obtain ⟨k, v⟩ := x
    by_cases hk : k = n
    · simp only [eraseKey, if_pos hk] at h
      exact List.mem_cons_of_mem _ h
    · simp only [eraseKey, if_neg hk] at h
      rcases List.mem_cons.mp h with h1 | h1
      · exact h1 ▸ List.mem_cons_self _ _
      · exact List.mem_cons_of_mem _ (ih n kv h1)

/-- Deleting a key keeps the key list a sublist of the old one. -/
theorem keys_eraseKey_sublist : ∀ (b : Book) (n : List Char),
    (keys (eraseKey b n)).Sublist (keys b) := by
  intro b
  induction b with
  | nil => intro n; simp [eraseKey, keys]
  | cons x rest ih =>
    intro n
    obtain ⟨k, v⟩ := x
    by_cases hk : k = n
    · simp only [eraseKey, if_pos hk]
      exact (List.sublist_cons_self _ _)
    · simp only [eraseKey, if_neg hk, keys, List.map_cons]
      exact List.Sublist.cons₂ _ (ih n)

/-- `delete` preserves the store invariant. -/
theorem deleteRecord_inv (b : Book) (n : List Char) (b' : Book)
    (h : BookInv b) (hdel : deleteRecord b n = .ok b') : BookInv b' := by
  have hb' : b' = eraseKey b n := by
    by_cases hc : n ∈ keys b
    · simp [deleteRecord, hc] at hdel
      exact hdel.symm
    · simp [deleteRecord, hc] at hdel
  subst hb'
  exact ⟨fun kv hkv => h.1 kv (eraseKey_subset b n kv hkv),
    h.2.sublist (keys_eraseKey_sublist b n)⟩

/-- The keys after a dict insertion: an existing key leaves the key list
unchanged, a new key is appended. -/
theorem keys_dictInsert : ∀ (b : Book) (kv : List Char × Record),
    keys (dictInsert b kv) =
      if kv.1 ∈ keys b then keys b else keys b ++ [kv.1] := by
  intro b
  induction b with
  | nil => intro kv; simp [dictInsert, keys]
  | cons x rest ih =>
    intro kv
    obtain ⟨k, v⟩ := x
    by_cases hk : k = kv.1
    · simp only [dictInsert, if_pos hk]
      rw [if_pos (show kv.1 ∈ keys ((k, v) :: rest) from by
        rw [← hk]; exact List.mem_cons_self _ _)]
      rfl
    · have hne : kv.1 ≠ k := fun h => hk h.symm
      simp only [dictInsert, if_neg hk]
      have hkeys : keys ((k, v) :: dictInsert rest kv) =
          k :: keys (dictInsert rest kv) := rfl
      rw [hkeys, ih kv]
      by_cases hm : kv.1 ∈ keys rest
      · rw [if_pos hm,
          if_pos (show kv.1 ∈ keys ((k, v) :: rest) from List.mem_cons_of_mem _ hm)]
        rfl
      · rw [if_neg hm, if_neg (show kv.1 ∉ keys ((k, v) :: rest) from by
          intro hc
          rcases List.mem_cons.mp hc with h1 | h1
          · exact hne h1
          · exact hm h1)]
        rfl

/-- A dict insertion whose pair satisfies the key-equals-name property
preserves the store invariant. -/
theorem dictInsert_inv : ∀ (b : Book) (kv : List Char × Record),
    BookInv b → kv.1 = kv.2.name → BookInv (dictInsert b kv) := by
  intro b
  induction b with
  | nil =>
    intro kv _ hkv
    refine ⟨?_, by simp [dictInsert, keys]⟩
    intro x hx
    simp [dictInsert] at hx
    subst hx
    exact hkv
  | cons x rest ih =>
    intro kv h hkv
    obtain ⟨k, v⟩ := x
    have hk1 : k = v.name := h.1 (k, v) (List.mem_cons_self _ _)
    have hnodup : (k :: keys rest).Nodup := h.2
    have hrest : BookInv rest :=
      ⟨fun y hy => h.1 y (List.mem_cons_of_mem _ hy),
        (List.nodup_cons.mp hnodup).2⟩
    have hknotin : k ∉ keys rest := (List.nodup_cons.mp hnodup).1
    by_cases hkk : k = kv.1
    · refine ⟨?_, ?_⟩
      · intro y hy
        simp only [dictInsert, if_pos hkk] at hy
        rcases List.mem_cons.mp hy with h1 | h1
        · subst h1; rw [hkk]; exact hkv
        · exact h.1 y (List.mem_cons_of_mem _ h1)
      · simp only [dictInsert, if_pos hkk]
        exact hnodup
    · obtain ⟨ihn, ihd⟩ := ih kv hrest hkv
      refine ⟨?_, ?_⟩
      · intro y hy
        simp only [dictInsert, if_neg hkk] at hy
        rcases List.mem_cons.mp hy with h1 | h1
        · subst h1; exact hk1
        · exact ihn y h1
      · simp only [dictInsert, if_neg hkk]
        show (k :: keys (dictInsert rest kv)).Nodup
        refine List.nodup_cons.mpr ⟨?_, ihd⟩
        rw [keys_dictInsert rest kv]
        by_cases hm : kv.1 ∈ keys rest
        · rw [if_pos hm]; exact hknotin
        · rw [if_neg hm]
          intro hc
          rcases List.mem_append.mp hc with h1 | h1
          · exact hknotin h1
          · rw [List.mem_singleton] at h1
            exact hkk h1

/-- Folding dict insertions of key-equals-name pairs preserves the store
invariant. -/
theorem foldl_dictInsert_inv : ∀ (l : List (List Char × Record)) (acc : Book),
    BookInv acc → (∀ kv ∈ l, kv.1 = kv.2.name) →
    BookInv (List.foldl dictInsert acc l) := by
  intro l
  induction l with
  | nil => intro acc h _; simpa using h
  | cons a t ih =>
    intro acc h hall
    simp only [List.foldl_cons]
    exact ih (dictInsert acc a) (dictInsert_inv acc a h (hall a (List.mem_cons_self _ _)))
      fun kv hkv => hall kv (List.mem_cons_of_mem _ hkv)

/-- A record built by `Record.__init__` carries the name it was given. -/
theorem mkRecord_name (n : List Char) (ps : List (List Char))
    (bd ad em : Option (List Char)) (r : Record)
    (h : mkRecord n ps bd ad em = .ok r) : r.name = n := by
  unfold mkRecord at h
  cases h1 : exceptMapM validatePhone ps with
  | error e => rw [h1, except_bind_error] at h; exact absurd h (by simp)
  | ok phs =>
    rw [h1, except_bind_ok] at h
    cases h2 : mkBirthdayVal bd with
    | error e => rw [h2, except_bind_error] at h; exact absurd h (by simp)
    | ok b =>
      rw [h2, except_bind_ok] at h
      cases h
      rfl

/-- Every element of a successful `exceptMapM` comes from some input
element. -/
theorem exceptMapM_mem {α β : Type} (f : α → Except PyErr β) :
    ∀ (l : List α) (res : List β), exceptMapM f l = .ok res →
      ∀ b ∈ res, ∃ a ∈ l, f a = .ok b := by
  intro l
  induction l with
  | nil =>
    intro res h b hb
    cases h
    simp at hb
  | cons a t ih =>
    intro res h b hb
    unfold exceptMapM at h
    cases h1 : f a with
    | error e => rw [h1, except_bind_error] at h; exact absurd h (by simp)
    | ok b0 =>
      rw [h1, except_bind_ok] at h
      cases h2 : exceptMapM f t with
      | error e => rw [h2, except_bind_error] at h; exact absurd h (by simp)
      | ok bs =>
        rw [h2, except_bind_ok] at h
        cases h
        rcases List.mem_cons.mp hb with h3 | h3
        · exact ⟨a, List.mem_cons_self _ _, h3 ▸ h1⟩
        · obtain ⟨a', ha', hfa'⟩ := ih bs h2 b h3
          exact ⟨a', List.mem_cons_of_mem _ ha', hfa'⟩

/-- A successful `load_data_from_json` establishes the store invariant. -/
theorem loadData_inv (ds : List RecordData) (b' : Book)
    (h : loadData ds = .ok b') : BookInv b' := by
  unfold loadData at h
  cases h1 : exceptMapM (fun d => do
      let r ← mkRecord d.name_ d.phones (some d.birthday) (some d.address) (some d.email)
      Except.ok (d.name_, r)) ds with
  | error e => rw [h1, except_bind_error] at h; exact absurd h (by simp)
  | ok l =>
    rw [h1, except_bind_ok] at h
    cases h
    apply foldl_dictInsert_inv l [] ⟨by simp, by simp [keys]⟩
    intro kv hkv
    obtain ⟨d, _, hfd⟩ := exceptMapM_mem _ ds l h1 kv hkv
    cases h2 : mkRecord d.name_ d.phones (some d.birthday) (some d.address) (some d.email) with
    | error e => rw [h2, except_bind_error] at hfd; exact absurd hfd (by simp)
    | ok r =>
      rw [h2, except_bind_ok] at hfd
      cases hfd
      exact (mkRecord_name _ _ _ _ _ _ h2).symm

/-- C9: every store state reachable from the empty store through
`add_record`, `delete` and `load_data_from_json` satisfies the invariant
that each dict key equals the stored record's name value and no two stored
records share a name. -/
theorem C9_store_invariant (b : Book) (h : Reach b) : BookInv b := by
  induction h with
  | empty => exact ⟨by simp, by simp [keys]⟩
  | add b r _ ih => exact addRecord_inv b r ih
  | del b n b' _ hdel ih => exact deleteRecord_inv b n b' ih hdel
  | load b ds b' _ hload _ => exact loadData_inv ds b' hload

/-- C9 (witness): the store obtained by adding one record to the empty
store is reachable and satisfies the invariant. -/
theorem C9_witness : BookInv ((addRecord [] bobRec).1) :=
  C9_store_invariant _ (Reach.add [] bobRec Reach.empty)

/-- The only exception the birthday projection can raise is `ValueError`. -/
theorem projectBirthday_error (today bd : PDate) (e : PyErr)
    (h : projectBirthday today bd = .error e) : e = .valueError := by
  unfold projectBirthday replaceYear at h
  split at h
  · rw [except_bind_ok] at h
    split at h
    · split at h
      · exact Except.noConfusion h
      · injection h with h1
        exact h1.symm
    · exact Except.noConfusion h
  · rw [except_bind_error] at h
    injection h with h1
    exact h1.symm

/-- Projecting a Feb 29 birthday onto a non-leap current year raises
`ValueError` in `date.replace`. -/
theorem projectBirthday_feb29 (today bd : PDate) (h2 : bd.month = 2)
    (h29 : bd.day = 29) (hl : isLeap today.year = false) :
    projectBirthday today bd = .error .valueError := by
  have hvd : validDate today.year bd.month bd.day = false := by
    rw [h2, h29]
    simp [validDate, daysInMonth, hl]
  unfold projectBirthday replaceYear
  rw [if_neg (by simp [hvd]), except_bind_error]

/-- The birthday loop fails with `ValueError` whenever some record in the
list has a Feb 29 birthday and the current year is not a leap year. -/
theorem gbpdAux_feb29 (today : PDate) (days : Int) (r : Record) (bd : PDate)
    (hb : r.birthday = .vdate bd) (h2 : bd.month = 2) (h29 : bd.day = 29)
    (hl : isLeap today.year = false) :
    ∀ (recs : List Record) (acc : List (List Char × List Record)),
      r ∈ recs → gbpdAux today days recs acc = .error .valueError := by
  intro recs
  induction recs with
  | nil => intro acc h; simp at h
  | cons r0 rs ih =>
    intro acc hmem
    rcases List.mem_cons.mp hmem with h1 | h1
    · subst h1
      simp only [gbpdAux, hb]
      rw [projectBirthday_feb29 today bd h2 h29 hl, except_bind_error]
    · cases hbb : r0.birthday with
      | vnone => simp only [gbpdAux, hbb]; exact ih acc h1
      | vnoneStr => simp only [gbpdAux, hbb]; exact ih acc h1
      | vdate bd0 =>
        simp only [gbpdAux, hbb]
        cases hp : projectBirthday today bd0 with
        | error e =>
          rw [except_bind_error, projectBirthday_error today bd0 e hp]
        | ok proj =>
          rw [except_bind_ok]
          exact ih _ h1

/-- C10: a validly constructed Feb 29 birthday makes
`get_birthdays_in_days` raise `ValueError` when evaluated in a non-leap
year — `date.replace(year=current_year)` has no valid day — so the
birthday-window query is not total over all valid birthdays. -/
theorem C10_feb29_raises (records : List Record) (today : PDate) (days : Int)
    (r : Record) (bd : PDate) (hmem : r ∈ records)
    (hb : r.birthday = .vdate bd) (h2 : bd.month = 2) (h29 : bd.day = 29)
    (hl : isLeap today.year = false) :
    getBirthdaysPerDays records today days = .error .valueError :=
  gbpdAux_feb29 today days r bd hb h2 h29 hl records [] hmem

/-- C10 (witness): the record with birthday 2024.02.29 — a valid date —
makes the query of any window on 2025.01.01 raise `ValueError`. -/
theorem C10_witness :
    getBirthdaysPerDays [recFeb] ⟨2025, 1, 1⟩ 10 = .error .valueError :=
  C10_feb29_raises [recFeb] ⟨2025, 1, 1⟩ 10 recFeb ⟨2024, 2, 29⟩
    (List.mem_cons_self _ _) rfl rfl rfl rfl

/-- Appending a record under one label changes exactly that label's group,
and appends at its end. -/
theorem groupOf_appendGroup :
    ∀ (acc : List (List Char × List Record)) (lab0 : List Char) (r0 : Record)
      (lab : List Char),
      groupOf (appendGroup acc lab0 r0) lab =
        if lab = lab0 then groupOf acc lab ++ [r0] else groupOf acc lab := by
  intro acc
  induction acc with
  | nil =>
    intro lab0 r0 lab
    by_cases h : lab = lab0
    · subst h
      simp [appendGroup, groupOf]
    · have h' : ¬lab0 = lab := fun hh => h hh.symm
      simp [appendGroup, groupOf, h, h']
  | cons x rest ih =>
    intro lab0 r0 lab
    obtain ⟨k, v⟩ := x
    by_cases hk : k = lab0
    · simp only [appendGroup, if_pos hk]
      by_cases hl : k = lab
      · subst hl
        simp only [groupOf, if_pos rfl]
        rw [if_pos hk]
        simp
      · have hne : lab ≠ lab0 := fun hh => hl (hk.trans hh.symm)
        simp only [groupOf, if_neg hl]
        rw [if_neg hne]
    · simp only [appendGroup, if_neg hk]
      by_cases hl : k = lab
      · have hne : lab ≠ lab0 := fun hh => hk (hl.trans hh)
        simp only [groupOf, if_pos hl]
        rw [if_neg hne]
      · simp only [groupOf, if_neg hl]
        exact ih lab0 r0 lab

/-- Membership in the output groups of the birthday loop: a record sits in
the group of a label exactly when it was already there in the accumulator or
it occurs in the processed list with a present birthday whose successful
projection carries that label and falls strictly inside the window. -/
theorem gbpdAux_mem (today : PDate) (days : Int) :
    ∀ (recs : List Record) (acc res : List (List Char × List Record)),
      gbpdAux today days recs acc = .ok res →
      ∀ (lab : List Char) (r : Record),
        (r ∈ groupOf res lab ↔
          r ∈ groupOf acc lab ∨
          ∃ bd proj, r ∈ recs ∧ r.birthday = .vdate bd ∧
            projectBirthday today bd = .ok proj ∧ strftimeLabel proj = lab ∧
            dateSubDays proj today < days) := by
  intro recs
  induction recs with
  | nil =>
    intro acc res h lab r
    simp only [gbpdAux] at h
    injection h with h'
    subst h'
    simp
  | cons r0 rs ih =>
    intro acc res h lab r
    cases hbb : r0.birthday with
    | vnone =>
      simp only [gbpdAux, hbb] at h
      rw [ih acc res h lab r]
      constructor
      · rintro (h1 | ⟨bd, proj, hm, hb, hp, hl, hd⟩)
        · exact Or.inl h1
        · exact Or.inr ⟨bd, proj, List.mem_cons_of_mem _ hm, hb, hp, hl, hd⟩
      · rintro (h1 | ⟨bd, proj, hm, hb, hp, hl, hd⟩)
        · exact Or.inl h1
        · rcases List.mem_cons.mp hm with h2 | h2
          · subst h2
            rw [hbb] at hb
            exact BVal.noConfusion hb
          · exact Or.inr ⟨bd, proj, h2, hb, hp, hl, hd⟩
    | vnoneStr =>
      simp only [gbpdAux, hbb] at h
      rw [ih acc res h lab r]
      constructor
      · rintro (h1 | ⟨bd, proj, hm, hb, hp, hl, hd⟩)
        · exact Or.inl h1
        · exact Or.inr ⟨bd, proj, List.mem_cons_of_mem _ hm, hb, hp, hl, hd⟩
      · rintro (h1 | ⟨bd, proj, hm, hb, hp, hl, hd⟩)
        · exact Or.inl h1
        · rcases List.mem_cons.mp hm with h2 | h2
          · subst h2
            rw [hbb] at hb
            exact BVal.noConfusion hb
          · exact Or.inr ⟨bd, proj, h2, hb, hp, hl, hd⟩
    | vdate bd0 =>
      simp only [gbpdAux, hbb] at h
      cases hp0 : projectBirthday today bd0 with
      | error e =>
        rw [hp0, except_bind_error] at h
        exact absurd h (by simp)
      | ok proj0 =>
        rw [hp0, except_bind_ok] at h
        by_cases hc : dateSubDays proj0 today < days
        · rw [if_pos hc] at h
          rw [ih _ res h lab r,
            groupOf_appendGroup acc (strftimeLabel proj0) r0 lab]
          constructor
          · rintro (h1 | ⟨bd, proj, hm, hb, hp, hl, hd⟩)
            · by_cases hll : lab = strftimeLabel proj0
              · rw [if_pos hll] at h1
                rcases List.mem_append.mp h1 with h2 | h2
                · exact Or.inl h2
                · rw [List.mem_singleton] at h2
                  subst h2
                  exact Or.inr
                    ⟨bd0, proj0, List.mem_cons_self _ _, hbb, hp0, hll.symm, hc⟩
              · rw [if_neg hll] at h1
                exact Or.inl h1
            · exact Or.inr ⟨bd, proj, List.mem_cons_of_mem _ hm, hb, hp, hl, hd⟩
          · rintro (h1 | ⟨bd, proj, hm, hb, hp, hl, hd⟩)
            · left
              by_cases hll : lab = strftimeLabel proj0
              · rw [if_pos hll]
                exact List.mem_append.mpr (Or.inl h1)
              · rw [if_neg hll]
                exact h1
            · rcases List.mem_cons.mp hm with h2 | h2
              · subst h2
                rw [hbb] at hb
                injection hb with hbd
                subst hbd
                rw [hp0] at hp
                injection hp with hpj
                subst hpj
                left
                rw [if_pos hl.symm]
                exact List.mem_append.mpr (Or.inr (List.mem_singleton.mpr rfl))
              · exact Or.inr ⟨bd, proj, h2, hb, hp, hl, hd⟩
        · rw [if_neg hc] at h
          rw [ih _ res h lab r]
          constructor
          · rintro (h1 | ⟨bd, proj, hm, hb, hp, hl, hd⟩)
            · exact Or.inl h1
            · exact Or.inr ⟨bd, proj, List.mem_cons_of_mem _ hm, hb, hp, hl, hd⟩
          · rintro (h1 | ⟨bd, proj, hm, hb, hp, hl, hd⟩)
            · exact Or.inl h1
            · rcases List.mem_cons.mp hm with h2 | h2
              · subst h2
                rw [hbb] at hb
                injection hb with hbd
                subst hbd
                rw [hp0] at hp
                injection hp with hpj
                subst hpj
                exact absurd hd hc
              · exact Or.inr ⟨bd, proj, h2, hb, hp, hl, hd⟩

/-- C4: when the birthday query returns a grouping, a record with a present
birthday whose projection onto the current year (advanced by one year when
already past) succeeds is grouped under the projected date's formatted
label exactly when `(projected - today).days < days`, with strict
less-than. -/
theorem C4_birthday_window (records : List Record) (today : PDate)
    (days : Int) (r : Record) (bd proj : PDate)
    (res : List (List Char × List Record)) (hmem : r ∈ records)
    (hb : r.birthday = .vdate bd)
    (hproj : projectBirthday today bd = .ok proj)
    (hres : getBirthdaysPerDays records today days = .ok res) :
    r ∈ groupOf res (strftimeLabel proj) ↔ dateSubDays proj today < days := by
  rw [gbpdAux_mem today days records [] res hres (strftimeLabel proj) r]
  constructor
  · rintro (h1 | ⟨bd', proj', _, hb', hp', hl', hd'⟩)
    · simp [groupOf] at h1
    · rw [hb] at hb'
      injection hb' with hbd
      subst hbd
      rw [hproj] at hp'
      injection hp' with hpj
      subst hpj
      exact hd'
  · intro hd
    exact Or.inr ⟨bd, proj, hmem, hb, hproj, rfl, hd⟩

/-- C4 (witness): a record with birthday 2024.01.10 evaluated on 2024.01.05
is included (in the group labelled "10 Jan (Wednesday)") with `days = 7`
and excluded with `days = 5`. -/
theorem C4_witness :
    recA ∈ groupOf [(strftimeLabel ⟨2024, 1, 10⟩, [recA])]
      (strftimeLabel ⟨2024, 1, 10⟩) ∧
    recA ∉ groupOf ([] : List (List Char × List Record))
      (strftimeLabel ⟨2024, 1, 10⟩) := by
  constructor
  · exact (C4_birthday_window [recA] ⟨2024, 1, 5⟩ 7 recA ⟨2024, 1, 10⟩
      ⟨2024, 1, 10⟩ [(strftimeLabel ⟨2024, 1, 10⟩, [recA])]
      (List.mem_cons_self _ _) rfl rfl (by rfl)).mpr (by decide)
  · intro hmem
    exact absurd ((C4_birthday_window [recA] ⟨2024, 1, 5⟩ 5 recA ⟨2024, 1, 10⟩
      ⟨2024, 1, 10⟩ [] (List.mem_cons_self _ _) rfl rfl (by rfl)).mp hmem)
      (by decide)

/-- A rendered digit character is an ASCII digit. -/
theorem digitChar_isDigit (n : Nat) : (digitChar n).isDigit = true := by
  have h : n % 10 < 10 := Nat.mod_lt _ (by norm_num)
  unfold digitChar
  generalize n % 10 = k at h ⊢
  interval_cases k <;> rfl

/-- The code point of a rendered digit character. -/
theorem digitChar_toNat (n : Nat) : (digitChar n).toNat = 48 + n % 10 := by
  have h : n % 10 < 10 := Nat.mod_lt _ (by norm_num)
  unfold digitChar
  generalize n % 10 = k at h ⊢
  interval_cases k <;> rfl

/-- All characters of the four-digit rendering are digits. -/
theorem pad4_digits (n : Nat) : (pad4 n).all Char.isDigit = true := by
  simp [pad4, digitChar_isDigit]

/-- All characters of the two-digit rendering are digits. -/
theorem pad2_digits (n : Nat) : (pad2 n).all Char.isDigit = true := by
  simp [pad2, digitChar_isDigit]

/-- Greedy digit taking consumes exactly an all-digit block of the limit's
length and leaves the rest. -/
theorem takeDigits_exact : ∀ (ds rest : List Char), ds.all Char.isDigit = true →
    takeDigits ds.length (ds ++ rest) = (ds, rest) := by
  intro ds
  induction ds with
  | nil => intro rest _; rfl
  | cons c t ih =>
    intro rest h
    simp only [List.all_cons, Bool.and_eq_true] at h
    simp only [List.length_cons, List.cons_append, takeDigits, h.1, if_pos]
    rw [show t.append rest = t ++ rest from rfl, ih rest h.2]

/-- Reading back the four-digit rendering of `n ≤ 9999` gives `n`. -/
theorem digitsToNat_pad4 (n : Nat) (h : n ≤ 9999) : digitsToNat (pad4 n) = n := by
  simp only [digitsToNat, pad4, List.foldl_cons, List.foldl_nil, digitChar_toNat]
  omega

/-- Reading back the two-digit rendering of `n ≤ 99` gives `n`. -/
theorem digitsToNat_pad2 (n : Nat) (h : n ≤ 99) : digitsToNat (pad2 n) = n := by
  simp only [digitsToNat, pad2, List.foldl_cons, List.foldl_nil, digitChar_toNat]
  omega

/-- Parsing the `DATE_FORMAT` rendering of a valid date gives the date
back (`strftime` then `strptime` is the identity on valid dates). -/
theorem parseDate_formatDate (d : PDate)
    (h : validDate d.year d.month d.day = true) : parseDate (formatDate d) = .ok d := by
  obtain ⟨y, m, dd⟩ := d
  simp only [validDate, Bool.and_eq_true, decide_eq_true_eq] at h
  obtain ⟨⟨⟨⟨⟨hy1, hy2⟩, hm1⟩, hm2⟩, hd1⟩, hd2⟩ := h
  have hm99 : m ≤ 99 := by omega
  have hd99 : dd ≤ 99 := by
    have : daysInMonth (isLeap y) m ≤ 31 := by
      unfold daysInMonth
      interval_cases m <;> cases isLeap y <;> simp
    omega
  have hfmt : formatDate ⟨y, m, dd⟩ = pad4 y ++ '.' :: (pad2 m ++ '.' :: pad2 dd) := by
    simp [formatDate]
  rw [hfmt]
  have h4 : takeDigits 4 (pad4 y ++ '.' :: (pad2 m ++ '.' :: pad2 dd)) =
      (pad4 y, '.' :: (pad2 m ++ '.' :: pad2 dd)) :=
    takeDigits_exact (pad4 y) _ (pad4_digits y)
  have h2m : takeDigits 2 (pad2 m ++ '.' :: pad2 dd) = (pad2 m, '.' :: pad2 dd) :=
    takeDigits_exact (pad2 m) _ (pad2_digits m)
  have h2d : takeDigits 2 (pad2 dd) = (pad2 dd, []) := by
    have := takeDigits_exact (pad2 dd) [] (pad2_digits dd)
    simpa using this
  simp only [pad4, pad2] at h4 h2m h2d
  simp only [parseDate, pad4, pad2]
  rw [h4]
  simp only [h2m, h2d]
  rw [show ([digitChar (y / 1000), digitChar (y / 100), digitChar (y / 10),
      digitChar y] : List Char) = pad4 y from rfl,
    show ([digitChar (m / 10), digitChar m] : List Char) = pad2 m from rfl,
    show ([digitChar (dd / 10), digitChar dd] : List Char) = pad2 dd from rfl]
  rw [digitsToNat_pad4 y hy2, digitsToNat_pad2 m hm99, digitsToNat_pad2 dd hd99]
  rw [if_pos]
  simp only [validDate, Bool.and_eq_true, decide_eq_true_eq]
  exact ⟨⟨⟨⟨⟨hy1, hy2⟩, hm1⟩, hm2⟩, hd1⟩, hd2⟩

/-- `exceptMapM` of a validator that returns its input unchanged is the
identity. -/
theorem exceptMapM_id (f : List Char → Except PyErr (List Char)) :
    ∀ l : List (List Char), (∀ p ∈ l, f p = .ok p) → exceptMapM f l = .ok l := by
  intro l
  induction l with
  | nil => exact fun _ => rfl
  | cons a t ih =>
    intro h
    have ha := h a (List.mem_cons_self _ _)
    have ht := ih fun x hx => h x (List.mem_cons_of_mem _ hx)
    simp [exceptMapM, ha, ht, except_bind_ok]

/-- Re-reading the string form of a birthday value: absence (either Python
`None` or the string `"None"`) comes back as the string `"None"` without a
parse error, a valid date comes back as the same date. -/
theorem mkBirthdayVal_strBVal (b : BVal)
    (h : match b with
      | .vdate d => validDate d.year d.month d.day = true
      | _ => True) :
    mkBirthdayVal (some (strBVal b)) = .ok (roundBVal b) := by
  cases b with
  | vnone => rfl
  | vnoneStr => rfl
  | vdate d =>
    have hv : validDate d.year d.month d.day = true := h
    have hne : ¬(strBVal (BVal.vdate d) = "None".toList) := by
      intro hh
      have hlen := congrArg List.length hh
      simp [strBVal, formatDate, pad4, pad2] at hlen
    simp only [mkBirthdayVal, strBVal] at hne ⊢
    rw [if_neg hne, parseDate_formatDate d hv]
    rfl

/-- Reconstructing a record from its serialized fields: names and phones
come back unchanged, and the optional fields as in `roundRecord`. -/
theorem mkRecord_dumpRecord (r : Record) (hw : wfRecordFields r) :
    mkRecord r.name r.phones (some (strBVal r.birthday))
      (some (strOpt r.address)) (some (strOpt r.email)) = .ok (roundRecord r) := by
  obtain ⟨hp, hb⟩ := hw
  unfold mkRecord
  rw [exceptMapM_id validatePhone r.phones hp, except_bind_ok,
    mkBirthdayVal_strBVal r.birthday hb, except_bind_ok]
  rfl

/-- Inserting a fresh key into a dict appends it at the end. -/
theorem dictInsert_append : ∀ (b : Book) (kv : List Char × Record),
    kv.1 ∉ keys b → dictInsert b kv = b ++ [kv] := by
  intro b
  induction b with
  | nil => intro kv _; rfl
  | cons x rest ih =>
    intro kv h
    obtain ⟨k, v⟩ := x
    have hk : ¬k = kv.1 := by
      intro hh
      exact h (hh ▸ List.mem_cons_self _ _)
    simp only [dictInsert, if_neg hk, List.cons_append]
    rw [ih kv fun hh => h (List.mem_cons_of_mem _ hh)]

/-- Building a dict from pairs with pairwise-distinct keys keeps the list
as it is. -/
theorem foldl_dictInsert_fresh : ∀ (l acc : Book),
    (keys (acc ++ l)).Nodup → List.foldl dictInsert acc l = acc ++ l := by
  intro l
  induction l with
  | nil => intro acc _; simp
  | cons a t ih =>
    intro acc h
    have hkeys : keys (acc ++ a :: t) = keys acc ++ a.1 :: keys t := by
      simp [keys]
    rw [hkeys] at h
    have hfresh : a.1 ∉ keys acc := by
      intro hmem
      exact (List.disjoint_of_nodup_append h) hmem (List.mem_cons_self _ _)
    simp only [List.foldl_cons]
    rw [dictInsert_append acc a hfresh]
    have h' : (keys ((acc ++ [a]) ++ t)).Nodup := by
      have : (acc ++ [a]) ++ t = acc ++ a :: t := by simp
      rw [show keys ((acc ++ [a]) ++ t) = keys acc ++ a.1 :: keys t from by
        rw [this]; exact hkeys]
      exact h
    rw [ih (acc ++ [a]) h']
    simp

/-- The serialized form of a round-tripped record is identical to the
serialized form of the original: a second save produces the same JSON. -/
theorem dumpRecord_roundRecord (r : Record) :
    dumpRecord (roundRecord r) = dumpRecord r := by
  cases hb : r.birthday <;>
    simp [dumpRecord, roundRecord, roundBVal, strBVal, strOpt, hb]

/-- C3 (corrected round trip): saving then loading a store of well-formed
records with the invariant reproduces the same number of contacts in
order, each with identical name, phones, and birthday (absence of a
birthday round-trips as absence — the string `"None"` — not a parse
error); the address and email fields come back as the string rendering of
their old value, so a present value is preserved exactly while a Python
`None` becomes the string `"None"`; a second save produces JSON identical
to the first. -/
theorem C3_round_trip (b : Book) (hinv : BookInv b)
    (hwf : ∀ kv ∈ b, wfRecordFields kv.2) :
    loadData (dumpBook b) =
      .ok (b.map fun kv => (kv.2.name, roundRecord kv.2)) ∧
    dumpBook (b.map fun kv => (kv.2.name, roundRecord kv.2)) = dumpBook b ∧
    (b.map fun kv => (kv.2.name, roundRecord kv.2)).length = b.length := by
  refine ⟨?_, ?_, by simp⟩
  · unfold loadData
    have hmap : exceptMapM (fun d => do
        let r ← mkRecord d.name_ d.phones (some d.birthday) (some d.address)
          (some d.email)
        Except.ok (d.name_, r)) (dumpBook b) =
        .ok (b.map fun kv => (kv.2.name, roundRecord kv.2)) := by
      clear hinv
      induction b with
      | nil => rfl
      | cons x rest ih =>
        have hx := hwf x (List.mem_cons_self _ _)
        have hrest := ih fun kv hkv => hwf kv (List.mem_cons_of_mem _ hkv)
        simp only [dumpBook, List.map_cons] at hrest ⊢
        simp only [exceptMapM, dumpRecord] at hrest ⊢
        rw [mkRecord_dumpRecord x.2 hx]
        simp only [except_bind_ok]
        rw [hrest]
        simp only [except_bind_ok]
    rw [hmap, except_bind_ok]
    have hkeys : keys (b.map fun kv => (kv.2.name, roundRecord kv.2)) = keys b := by
      simp only [keys, List.map_map]
      exact List.map_congr_left fun kv hkv => (hinv.1 kv hkv).symm
    have hnodup : (keys (b.map fun kv => (kv.2.name, roundRecord kv.2))).Nodup := by
      rw [hkeys]; exact hinv.2
    unfold buildDict
    rw [show (b.map fun kv => (kv.2.name, roundRecord kv.2)) =
        [] ++ (b.map fun kv => (kv.2.name, roundRecord kv.2)) from by simp] at hnodup ⊢
    rw [foldl_dictInsert_fresh _ [] (by simpa using hnodup)]
    simp
  · simp only [dumpBook, List.map_map]
    exact List.map_congr_left fun kv _ => dumpRecord_roundRecord kv.2

/-- C3 (counterexample): a record with no email round-trips to a record
whose email field value is the string `"None"`, not Python `None` — the
field values are not identical as the claim states (the same happens to an
absent address and to the internal birthday value). -/
theorem C3_counterexample :
    loadData (dumpBook bobBook) = .ok [("Bob".toList, roundRecord bobRec)] ∧
    (roundRecord bobRec).email = some "None".toList ∧
    bobRec.email = none := by
  refine ⟨rfl, rfl, rfl⟩

/-- C3 (witness): the round-trip theorem applied to a concrete one-record
store. -/
theorem C3_witness :
    loadData (dumpBook annBook) = .ok [("Ann".toList, roundRecord annRec)] := by
  have hinv : BookInv annBook := ⟨by decide, by decide⟩
  have hwf : ∀ kv ∈ annBook, wfRecordFields kv.2 := by
    intro kv hkv
    rw [show annBook = [("Ann".toList, annRec)] from rfl, List.mem_singleton] at hkv
    subst hkv
    exact ⟨by intro p hp; exact absurd hp (by simp [annRec]), trivial⟩
  have h := (C3_round_trip annBook hinv hwf).1
  simpa [annBook] using h
